import Mathlib

/-!
Verification of the core calculation state machine and
atom/pseudopotential reconciliation logic of the `vasp` calculator
(`vasp/vasp_core.py`).

The Python source is shallowly embedded:

* atoms are represented by the list of their chemical symbols
  (positions and other per-atom attributes play no role in the logic
  verified here);
* Python list indexing (which accepts negative indices and raises
  `IndexError` out of range) is `pyIdx`;
* the filesystem evidence consumed by `get_state` is an explicit
  `Snapshot` record (file-existence booleans, the `readlines()` view of
  OUTCAR, the text of CONTCAR, the stored job id and the queue oracle);
* fallible operations (Python `IndexError`, failing `assert`,
  `RuntimeError`) are `Except` values;
* `subprocess.call` together with the `os.chdir` bracket in
  `Vasp.calculate` is modelled by an explicit engine oracle and explicit
  working-directory state.
-/

set_option autoImplicit false

/-- List membership is decidable from decidable equality (used for the
`i not in resort_indices` / `x[0] not in ...` tests below; stated here
because the `BEq`-based core instance does not fire for `Sum` keys). -/
instance listDecMem {α : Type} [DecidableEq α] (a : α) (l : List α) :
    Decidable (a ∈ l) :=
  decidable_of_iff (∃ x ∈ l, x = a) (by simp)

namespace Vasp

/-- A `setups` entry: the key is either an explicit atom index (Python
`int`) or a chemical symbol (Python `str`), paired with a POTCAR suffix.
This mirrors the `(atom_index, suffix)` / `(atom_symbol, suffix)` tuples
accepted by the `setups` keyword. -/
abbrev SetupEntry := Sum Int String × String

/-- One entry of the `ppp` list built by `sort_atoms`:
`[index_or_symbol, potcar_file, count]`. -/
structure Group where
  key : Sum Int String
  path : String
  count : Nat
deriving DecidableEq, Repr

/-- The data `sort_atoms` stores on success: `self.ppp_list`,
`self.resort` and `self.symbol_count`. -/
structure SortResult where
  ppp : List Group
  resort : List Int
  symbol_count : List (String × Nat)
deriving DecidableEq, Repr

/-- Failure modes of `sort_atoms`: a Python `IndexError` from
`atoms[setup[0]]`, or one of the two trailing `assert` statements. -/
inductive SortErr
  | indexError
  | assertError
deriving DecidableEq, Repr

/-- Python list indexing `atoms[i]`: nonnegative indices address from the
front, negative indices from the back, anything else raises
`IndexError` (here: `none`). -/
def pyIdx (atoms : List String) (i : Int) : Option String :=
  if 0 ≤ i ∧ i < (atoms.length : Int) then
    atoms[i.toNat]?
  else if 0 ≤ i + (atoms.length : Int) ∧ i < 0 then
    atoms[(i + (atoms.length : Int)).toNat]?
  else
    none

/-- `'potpaw_{}/{}{}/POTCAR'.format(pp, sym, suffix)`; the default-POTCAR
format `'potpaw_{}/{}/POTCAR'.format(pp, symbol)` is the special case
`suffix = ""`. -/
def potcarPath (pp sym suffix : String) : String :=
  "potpaw_" ++ pp ++ "/" ++ sym ++ suffix ++ "/POTCAR"

/-- `[x for x in setups if isinstance(x[0], int)]`, keeping the pair
`(index, suffix)`. -/
def indexSetups (setups : List SetupEntry) : List (Int × String) :=
  setups.filterMap (fun s => match s.1 with
    | Sum.inl i => some (i, s.2)
    | Sum.inr _ => none)

/-- `[x for x in setups if not isinstance(x[0], int)]`, keeping the pair
`(symbol, suffix)`. -/
def symbolSetups (setups : List SetupEntry) : List (String × String) :=
  setups.filterMap (fun s => match s.1 with
    | Sum.inl _ => none
    | Sum.inr sym => some (sym, s.2))

/-- The index keys of the explicit-index setups, in setup order. -/
def indexKeys (setups : List SetupEntry) : List Int :=
  (indexSetups setups).map Prod.fst

/-- `enumerate`, starting at `k`. -/
def enumAux {α : Type} (k : Nat) : List α → List (Nat × α)
  | [] => []
  | a :: as => (k, a) :: enumAux (k + 1) as

/-- The atom-claiming scan shared by the symbol-setup loop and the
default-potential loop of `sort_atoms`:

    for i, atom in enumerate(atoms):
        if atom.symbol == symbol and i not in resort_indices:
            count += 1
            resort_indices += [i]

The first argument list is the (remaining part of the) enumeration of
the atoms. -/
def claimSymbolAux (symbol : String) :
    List (Nat × String) → List Int → Nat → List Int × Nat
  | [], r, count => (r, count)
  | (i, sym) :: rest, r, count =>
    if sym = symbol ∧ ((i : Int) ∉ r) then
      claimSymbolAux symbol rest (r ++ [(i : Int)]) (count + 1)
    else
      claimSymbolAux symbol rest r count

/-- Scan all atoms for `symbol`, starting from resort list `r`. -/
def claimSymbol (atoms : List String) (symbol : String) (r : List Int) :
    List Int × Nat :=
  claimSymbolAux symbol (enumAux 0 atoms) r 0

/-- Step 1 of `sort_atoms`: the numeric-index setups.

    for setup in [x for x in setups if isinstance(x[0], int)]:
        ppp += [[setup[0],
                 'potpaw_{}/{}{}/POTCAR'.format(pp, atoms[setup[0]].symbol,
                                                setup[1]), 1]]
        resort_indices += [setup[0]]
-/
def indexSetupLoop (atoms : List String) (pp : String) :
    List (Int × String) → List Group → List Int →
    Except SortErr (List Group × List Int)
  | [], ppp, r => .ok (ppp, r)
  | (i, suffix) :: rest, ppp, r =>
    match pyIdx atoms i with
    | none => .error .indexError
    | some sym =>
      indexSetupLoop atoms pp rest
        (ppp ++ [⟨Sum.inl i, potcarPath pp sym suffix, 1⟩])
        (r ++ [i])

/-- Step 2 of `sort_atoms`: the symbol setups.

    for setup in [x for x in setups if not isinstance(x[0], int)]:
        symbol = setup[0]
        count = 0
        for i, atom in enumerate(atoms):
            if atom.symbol == symbol and i not in resort_indices:
                count += 1
                resort_indices += [i]
        ppp += [[symbol, 'potpaw_{}/{}{}/POTCAR'.format(pp, symbol,
                                                        setup[1]), count]]
-/
def symbolSetupLoop (atoms : List String) (pp : String) :
    List (String × String) → List Group → List Int → List Group × List Int
  | [], ppp, r => (ppp, r)
  | (symbol, suffix) :: rest, ppp, r =>
    let res := claimSymbol atoms symbol r
    symbolSetupLoop atoms pp rest
      (ppp ++ [⟨Sum.inr symbol, potcarPath pp symbol suffix, res.2⟩])
      res.1

/-- Step 3 of `sort_atoms`: distinct symbols of atoms not yet keyed in
`ppp`, in first-appearance order.

    symbols = []
    for atom in atoms or []:
        if (atom.symbol not in symbols and
            atom.symbol not in [x[0] for x in ppp]):
            symbols += [atom.symbol]

(Note Python compares the string `atom.symbol` with both the `int` and
`str` keys in `ppp`; `str == int` is always `False`, which the `Sum`
comparison reproduces.) -/
def remainingSymbolsAux (keys : List (Sum Int String)) :
    List String → List String → List String
  | [], acc => acc
  | sym :: rest, acc =>
    let key : Sum Int String := Sum.inr sym
    if sym ∉ acc ∧ key ∉ keys then
      remainingSymbolsAux keys rest (acc ++ [sym])
    else
      remainingSymbolsAux keys rest acc

def remainingSymbols (atoms : List String) (ppp : List Group) : List String :=
  remainingSymbolsAux (ppp.map Group.key) atoms []

/-- Step 4 of `sort_atoms`: the remaining symbols use default
potentials; groups with zero count are omitted.

    for symbol in symbols:
        count = 0
        for i, atom in enumerate(atoms):
            if atom.symbol == symbol and i not in resort_indices:
                resort_indices += [i]
                count += 1
        if count > 0:
            ppp += [[symbol, 'potpaw_{}/{}/POTCAR'.format(pp, symbol),
                     count]]
-/
def defaultLoop (atoms : List String) (pp : String) :
    List String → List Group → List Int → List Group × List Int
  | [], ppp, r => (ppp, r)
  | symbol :: rest, ppp, r =>
    let res := claimSymbol atoms symbol r
    defaultLoop atoms pp rest
      (if res.2 > 0 then
        ppp ++ [⟨Sum.inr symbol, potcarPath pp symbol "", res.2⟩]
      else ppp)
      res.1

/-- `sum([x[2] for x in ppp])`. -/
def sumCounts (l : List Group) : Nat :=
  (l.map Group.count).sum

/-- `self.symbol_count = [(x[0] if isinstance(x[0], str) else
atoms[x[0]].symbol, x[2]) for x in ppp]`. (By the time this list is
built, every `int` key has already been successfully looked up in step
1, so the `getD ""` default is never hit.) -/
def symbolCount (atoms : List String) (ppp : List Group) :
    List (String × Nat) :=
  ppp.map (fun g =>
    (match g.key with
     | Sum.inl i => (pyIdx atoms i).getD ""
     | Sum.inr sym => sym,
     g.count))

/-- `Vasp.sort_atoms` (vasp_core.py, lines 278-355), for a given atom
list: runs steps 1-4 above and then the two `assert` statements

    assert len(resort_indices) == len(atoms)
    assert sum([x[2] for x in ppp]) == len(atoms)
-/
def sort_atoms (atoms : List String) (pp : String)
    (setups : List SetupEntry) : Except SortErr SortResult :=
  match indexSetupLoop atoms pp (indexSetups setups) [] [] with
  | .error e => .error e
  | .ok pr =>
    let pr2 := symbolSetupLoop atoms pp (symbolSetups setups) pr.1 pr.2
    let syms := remainingSymbols atoms pr2.1
    let pr3 := defaultLoop atoms pp syms pr2.1 pr2.2
    if pr3.2.length = atoms.length then
      if sumCounts pr3.1 = atoms.length then
        .ok ⟨pr3.1, pr3.2, symbolCount atoms pr3.1⟩
      else .error .assertError
    else .error .assertError

/-- Proof helper (not part of the source): the indices freshly claimed
by `claimSymbolAux symbol l r _`, so that the scan can be described as
appending this list to `r`. -/
def newClaims (symbol : String) : List (Nat × String) → List Int → List Int
  | [], _ => []
  | (i, sym) :: rest, r =>
    if sym = symbol ∧ ((i : Int) ∉ r) then
      (i : Int) :: newClaims symbol rest (r ++ [(i : Int)])
    else newClaims symbol rest r

/-- An override set "validly partitions" the structure when every
explicit-index override names a distinct existing atom (by its
nonnegative index). -/
def validSetups (atoms : List String) (setups : List SetupEntry) : Prop :=
  (indexKeys setups).Nodup ∧
    ∀ i ∈ indexKeys setups, 0 ≤ i ∧ i < (atoms.length : Int)

instance (atoms : List String) (setups : List SetupEntry) :
    Decidable (validSetups atoms setups) := by
  unfold validSetups; infer_instance

/-! ### String helpers

Python's substring test (`needle in line`) and whitespace split
(`line.split()`), modelled on the character lists underlying `String`.
-/

/-- Does `s` start with `needle`? -/
def startsWithChars : List Char → List Char → Bool
  | [], _ => true
  | _ :: _, [] => false
  | a :: as, b :: bs => a = b && startsWithChars as bs

/-- Does `s` contain `needle` as a contiguous substring? -/
def hasSubChars (needle : List Char) : List Char → Bool
  | [] => startsWithChars needle []
  | c :: cs => startsWithChars needle (c :: cs) || hasSubChars needle cs

/-- Python `needle in s` (substring containment). -/
def containsSubstr (needle s : String) : Bool :=
  hasSubChars needle.data s.data

/-- Python `s.split()` (split on runs of spaces, no empty fields; the
source only ever splits POTCAR header lines, which are space
separated). -/
def splitWSAux : List Char → List Char → List String
  | [], cur => if cur.isEmpty then [] else [String.mk cur.reverse]
  | c :: cs, cur =>
    if c = ' ' then
      if cur.isEmpty then splitWSAux cs []
      else String.mk cur.reverse :: splitWSAux cs []
    else splitWSAux cs (c :: cur)

def splitWS (s : String) : List String :=
  splitWSAux s.data []

/-! ### State machine (`Vasp.get_state`) -/

/-- The enumerated states of `Vasp` (class attributes of the source). -/
def EMPTY : Nat := 0
def NEW : Nat := 1
def QUEUED : Nat := 2
def FINISHED : Nat := 3
def NOTFINISHED : Nat := 4
def EMPTYCONTCAR : Nat := 5
def NEB : Nat := 10
def UNKNOWN : Nat := 100

/-- A Python runtime error surfaced by the embedded code. -/
inductive PyErr
  | indexError
deriving DecidableEq, Repr

/-- The engine's normal-termination marker searched for in the last
OUTCAR line. -/
def marker : String := "Voluntary context switches:"

/-- A snapshot of the evidence `get_state` consumes: existence of the
four input files and of the NEB image directory `00`, the
`readlines()` view of OUTCAR (`none` when the file does not exist),
the full text of CONTCAR (`none` when it does not exist), the stored
job id (`self.get_db('jobid')`) and the queue oracle
(`self.in_queue()`). -/
structure Snapshot where
  incar : Bool
  poscar : Bool
  potcar : Bool
  kpoints : Bool
  dir00 : Bool
  outcar : Option (List String)
  contcar : Option String
  jobid : Option Nat
  inQueue : Bool
deriving DecidableEq, Repr

/-- Source block

    if not self.in_queue():
        if os.path.exists(self.outcar):
            with open(self.outcar) as f:
                lines = f.readlines()
                if 'Voluntary context switches:' in lines[-1]:
                    return Vasp.FINISHED

`ok none` means "fall through to the next block"; `lines[-1]` on an
empty file raises `IndexError`. -/
def finished_check (s : Snapshot) : Except PyErr (Option Nat) :=
  if !s.inQueue then
    match s.outcar with
    | some lines =>
      match lines.getLast? with
      | none => .error .indexError
      | some l =>
        if containsSubstr marker l then .ok (some FINISHED) else .ok none
    | none => .ok none
  else .ok none

/-- Source block

    if not self.in_queue():
        if os.path.exists(self.outcar):
            with open(self.outcar) as f:
                lines = f.readlines()
                if 'Voluntary context switches:' not in lines[-1]:
                    return Vasp.NOTFINISHED
        else:
            return Vasp.NOTFINISHED
-/
def notfinished_check (s : Snapshot) : Except PyErr (Option Nat) :=
  if !s.inQueue then
    match s.outcar with
    | some lines =>
      match lines.getLast? with
      | none => .error .indexError
      | some l =>
        if !containsSubstr marker l then .ok (some NOTFINISHED) else .ok none
    | none => .ok (some NOTFINISHED)
  else .ok none

/-- Source block

    if not self.in_queue():
        if os.path.exists(self.contcar):
            with open(self.contcar) as f:
                if f.read() == '':
                    return Vasp.EMPTYCONTCAR
-/
def emptycontcar_check (s : Snapshot) : Except PyErr (Option Nat) :=
  if !s.inQueue then
    match s.contcar with
    | some content => if content = "" then .ok (some EMPTYCONTCAR) else .ok none
    | none => .ok none
  else .ok none

/-- `Vasp.get_state` (vasp_core.py, lines 590-647): classify the
calculation directory, in source order — NEB, EMPTY, NEW, QUEUED, then
the three fall-through blocks above, then UNKNOWN. -/
def get_state (s : Snapshot) : Except PyErr Nat :=
  if s.incar && s.potcar && s.kpoints && !s.poscar && s.dir00 then
    .ok NEB
  else if [s.incar, s.poscar, s.potcar, s.kpoints].contains false then
    .ok EMPTY
  else if ([s.incar, s.poscar, s.potcar, s.kpoints].all (fun b => b))
      && s.jobid.isSome && s.outcar.isNone then
    .ok NEW
  else if s.inQueue then
    .ok QUEUED
  else
    match finished_check s with
    | .error e => .error e
    | .ok (some st) => .ok st
    | .ok none =>
      match notfinished_check s with
      | .error e => .error e
      | .ok (some st) => .ok st
      | .ok none =>
        match emptycontcar_check s with
        | .error e => .error e
        | .ok (some st) => .ok st
        | .ok none => .ok UNKNOWN

/-! ### `Vasp.calculation_required` -/

/-- `Vasp.calculation_required` (vasp_core.py, lines 488-510), as a
function of the `check_state` diff (`system_changes`), the requested
`properties`, the keys of the cached `self.results`, and the OUTCAR
lines (`none` when the file does not exist). Returns `ok (some b)` for
an explicit `return` of a boolean, `ok none` when the function falls
off its end (Python `None`), and an `IndexError` for `lines[-1]` on an
empty OUTCAR. -/
def calculation_required (system_changes properties resultKeys : List String)
    (outcar : Option (List String)) : Except PyErr (Option Bool) :=
  if !system_changes.isEmpty then .ok (some true)
  else if properties.any (fun name => !resultKeys.contains name) then
    .ok (some true)
  else
    match outcar with
    | some lines =>
      match lines.getLast? with
      | none => .error .indexError
      | some l =>
        if containsSubstr marker l then .ok (some false) else .ok none
    | none => .ok none

/-! ### `Vasp.calculate`: engine invocation -/

/-- The engine-invocation section of `Vasp.calculate` (vasp_core.py,
lines 523-540):

    if self.command is None:
        raise RuntimeError('Please set $%s environment variable ' %
                           ('ASE_' + self.name.upper() + '_COMMAND') +
                           'or supply the command keyword')
    olddir = os.getcwd()
    try:
        os.chdir(self.directory)
        errorcode = subprocess.call(self.command, stdout=..., shell=True)
    finally:
        os.chdir(olddir)
    if errorcode:
        raise RuntimeError('{} returned an error: {}'.format(self.name,
                                                             errorcode))

The child process is an oracle `engine command directory` returning
either the exit code or a raised exception; the returned pair is
(current working directory after the call completes or the error
escapes, outcome). The `finally` clause restores `olddir` on both the
exception path and the normal path before the exit code is examined. -/
def calculate_invoke (name : String) (command : Option String)
    (olddir dir : String) (engine : String → String → Except String Nat) :
    String × Except String Unit :=
  match command with
  | none =>
    (olddir, .error ("Please set $ASE_" ++ name.toUpper ++ "_COMMAND" ++
      " environment variable or supply the command keyword"))
  | some cmd =>
    match engine cmd dir with
    | .error exc => (olddir, .error exc)
    | .ok errorcode =>
      if errorcode ≠ 0 then
        (olddir, .error (name ++ " returned an error: " ++ toString errorcode))
      else (olddir, .ok ())

/-! ### `Vasp.check_state`: DFT+U (`ldau_luj`) reconstruction -/

/-- Python `zip` over four lists: truncates to the shortest. -/
def zip4 {α β γ δ : Type} :
    List α → List β → List γ → List δ → List (α × β × γ × δ)
  | a :: as, b :: bs, c :: cs, d :: ds => (a, b, c, d) :: zip4 as bs cs ds
  | _, _, _, _ => []

/-- The `{'L': l, 'U': u, 'J': j}` record. -/
structure LUJ where
  L : Int
  U : Int
  J : Int
deriving DecidableEq, Repr

/-- The species-symbol scan of `Vasp.check_state` (vasp_core.py, lines
442-446):

    symbols = [lines[0].split()[1]]
    for i, line in enumerate(lines):
        if 'End of Dataset' in line and i != len(lines) - 1:
            symbols += [lines[i + 1].split()[1]]

`none` models the `IndexError` paths (`lines[0]` on an empty file,
`split()[1]` on a short header line). -/
def potcarSymbolsAux (lines : List String) :
    List (Nat × String) → List String → Option (List String)
  | [], acc => some acc
  | (i, line) :: rest, acc =>
    if containsSubstr "End of Dataset" line ∧ i ≠ lines.length - 1 then
      match lines[i + 1]? with
      | none => none
      | some nxt =>
        match (splitWS nxt)[1]? with
        | none => none
        | some sym => potcarSymbolsAux lines rest (acc ++ [sym])
    else potcarSymbolsAux lines rest acc

def potcarSymbols (lines : List String) : Option (List String) :=
  match lines[0]? with
  | none => none
  | some first =>
    match (splitWS first)[1]? with
    | none => none
    | some s0 => potcarSymbolsAux lines (enumAux 0 lines) [s0]

/-- The pairing loop of `Vasp.check_state` (vasp_core.py, lines
448-450):

    ldau_luj = {}
    for sym, l, j, u in zip(symbols, ldaul, ldauj, ldauu):
        ldau_luj[sym] = {'L': l, 'U': u, 'J': j}

(the dict is modelled as the association list in insertion order;
symbols parsed from a POTCAR are distinct species). -/
def reconstruct_ldau_luj (symbols : List String)
    (ldaul ldauj ldauu : List Int) : List (String × LUJ) :=
  (zip4 symbols ldaul ldauj ldauu).map
    (fun p => (p.1, ⟨p.2.1, p.2.2.2, p.2.2.1⟩))

/-- The whole `ldauu`-present branch of `Vasp.check_state` (vasp_core.py,
lines 434-452): parse the species blocks out of the POTCAR lines, then
pair them with the three tag arrays. `none` is a raised error
(reconciliation failure); note the pairing itself can never produce
one. -/
def check_state_ldau (potcarLines : List String)
    (ldaul ldauj ldauu : List Int) : Option (List (String × LUJ)) :=
  match potcarSymbols potcarLines with
  | none => none
  | some symbols => some (reconstruct_ldau_luj symbols ldaul ldauj ldauu)

end Vasp

/-! ## Lemmas about the resolver (`sort_atoms`) -/

section SortLemmas

open Vasp

theorem enumAux_mem {α : Type} (l : List α) : ∀ (k : Nat) (p : Nat × α),
    p ∈ enumAux k l → k ≤ p.1 ∧ p.1 - k < l.length ∧ l[p.1 - k]? = some p.2 := by
  induction l with
  | nil => intro k p h; simp [enumAux] at h
  | cons a as ih =>
    intro k p h
    simp only [enumAux, List.mem_cons] at h
    rcases h with rfl | h
    · simp
    · obtain ⟨h1, h2, h3⟩ := ih (k + 1) p h
      refine ⟨by omega, by simp only [List.length_cons]; omega, ?_⟩
      have he : p.1 - k = (p.1 - (k + 1)) + 1 := by omega
      rw [he]
      simpa using h3

theorem enumAux_mem_of {α : Type} (l : List α) : ∀ (k j : Nat) (a : α),
    l[j]? = some a → (k + j, a) ∈ enumAux k l := by
  induction l with
  | nil => intro k j a h; simp at h
  | cons b bs ih =>
    intro k j a h
    cases j with
    | zero =>
      simp only [List.getElem?_cons_zero, Option.some.injEq] at h
      subst h
      simp [enumAux]
    | succ m =>
      simp only [List.getElem?_cons_succ] at h
      have hm := ih (k + 1) m a h
      simp only [enumAux, List.mem_cons]
      right
      have he : k + (m + 1) = k + 1 + m := by omega
      rw [he]
      exact hm

theorem claimSymbolAux_eq (symbol : String) :
    ∀ (l : List (Nat × String)) (r : List Int) (c : Nat),
    claimSymbolAux symbol l r c =
      (r ++ newClaims symbol l r, c + (newClaims symbol l r).length) := by
  intro l
  induction l with
  | nil => intro r c; simp [claimSymbolAux, newClaims]
  | cons q rest ih =>
    intro r c
    obtain ⟨i, sym⟩ := q
    by_cases h : sym = symbol ∧ ((i : Int) ∉ r)
    · simp only [claimSymbolAux, newClaims, if_pos h]
      rw [ih]
      rw [List.append_assoc]
      simp only [List.singleton_append, List.length_cons]
      exact Prod.ext rfl (by omega)
    · simp only [claimSymbolAux, newClaims, if_neg h]
      exact ih r c

theorem newClaims_mem (symbol : String) :
    ∀ (l : List (Nat × String)) (r : List Int) (x : Int),
    x ∈ newClaims symbol l r →
      x ∉ r ∧ ∃ p ∈ l, (p.1 : Int) = x ∧ p.2 = symbol := by
  intro l
  induction l with
  | nil => intro r x h; simp [newClaims] at h
  | cons q rest ih =>
    intro r x h
    obtain ⟨i, sym⟩ := q
    by_cases hc : sym = symbol ∧ ((i : Int) ∉ r)
    · simp only [newClaims, if_pos hc, List.mem_cons] at h
      rcases h with rfl | h2
      · exact ⟨hc.2, ⟨(i, sym), List.mem_cons_self _ _, rfl, hc.1⟩⟩
      · obtain ⟨hnr, p, hp, he, hs⟩ := ih (r ++ [(i : Int)]) x h2
        exact ⟨fun hx => hnr (List.mem_append_left _ hx),
          ⟨p, List.mem_cons_of_mem _ hp, he, hs⟩⟩
    · simp only [newClaims, if_neg hc] at h
      obtain ⟨hnr, p, hp, he, hs⟩ := ih r x h
      exact ⟨hnr, ⟨p, List.mem_cons_of_mem _ hp, he, hs⟩⟩

theorem newClaims_nodup (symbol : String) :
    ∀ (l : List (Nat × String)) (r : List Int), (newClaims symbol l r).Nodup := by
  intro l
  induction l with
  | nil => intro r; simp [newClaims]
  | cons q rest ih =>
    intro r
    obtain ⟨i, sym⟩ := q
    by_cases hc : sym = symbol ∧ ((i : Int) ∉ r)
    · simp only [newClaims, if_pos hc]
      refine List.nodup_cons.mpr ⟨?_, ih _⟩
      intro hmem
      obtain ⟨hnr, _⟩ := newClaims_mem symbol rest (r ++ [(i : Int)]) _ hmem
      exact hnr (List.mem_append_right _ (List.mem_singleton.mpr rfl))
    · simp only [newClaims, if_neg hc]
      exact ih r

theorem newClaims_complete (symbol : String) :
    ∀ (l : List (Nat × String)) (r : List Int) (p : Nat × String),
    p ∈ l → p.2 = symbol → (p.1 : Int) ∈ r ++ newClaims symbol l r := by
  intro l
  induction l with
  | nil => intro r p hp; cases hp
  | cons q rest ih =>
    intro r p hp hsym
    obtain ⟨i, sym⟩ := q
    rcases List.mem_cons.mp hp with rfl | hp2
    · by_cases hc : sym = symbol ∧ ((i : Int) ∉ r)
      · simp only [newClaims, if_pos hc]
        exact List.mem_append_right _ (List.mem_cons_self _ _)
      · simp only [newClaims, if_neg hc]
        have hin : (i : Int) ∈ r := by
          by_contra hni
          exact hc ⟨hsym, hni⟩
        exact List.mem_append_left _ hin
    · by_cases hc : sym = symbol ∧ ((i : Int) ∉ r)
      · simp only [newClaims, if_pos hc]
        have := ih (r ++ [(i : Int)]) p hp2 hsym
        rw [List.append_assoc] at this
        simpa using this
      · simp only [newClaims, if_neg hc]
        exact ih r p hp2 hsym

theorem pyIdx_of_nonneg_lt (atoms : List String) (i : Int)
    (h0 : 0 ≤ i) (h1 : i < (atoms.length : Int)) :
    ∃ sym, pyIdx atoms i = some sym := by
  have hlt : i.toNat < atoms.length := by omega
  refine ⟨atoms[i.toNat], ?_⟩
  unfold pyIdx
  rw [if_pos ⟨h0, h1⟩]
  exact List.getElem?_eq_getElem hlt

theorem sumCounts_append (l1 l2 : List Group) :
    sumCounts (l1 ++ l2) = sumCounts l1 + sumCounts l2 := by
  simp [sumCounts]

theorem claimSymbol_eq (atoms : List String) (symbol : String) (r : List Int) :
    claimSymbol atoms symbol r =
      (r ++ newClaims symbol (enumAux 0 atoms) r,
       (newClaims symbol (enumAux 0 atoms) r).length) := by
  unfold claimSymbol
  rw [claimSymbolAux_eq]
  simp

theorem indexSetupLoop_ok (atoms : List String) (pp : String) :
    ∀ (idxs : List (Int × String)) (ppp : List Group) (r : List Int),
    (∀ q ∈ idxs, ∃ sym, pyIdx atoms q.1 = some sym) →
    ∃ gs, indexSetupLoop atoms pp idxs ppp r =
        .ok (ppp ++ gs, r ++ idxs.map Prod.fst) ∧
      gs.map Group.key = idxs.map (fun q => Sum.inl q.1) ∧
      sumCounts gs = idxs.length ∧
      (∀ q ∈ idxs, ∃ sym, pyIdx atoms q.1 = some sym ∧
        (⟨Sum.inl q.1, potcarPath pp sym q.2, 1⟩ : Group) ∈ gs) := by
  intro idxs
  induction idxs with
  | nil =>
    intro ppp r _
    exact ⟨[], by simp [indexSetupLoop, sumCounts]⟩
  | cons q rest ih =>
    intro ppp r hall
    obtain ⟨i, suffix⟩ := q
    obtain ⟨sym, hsym⟩ := hall (i, suffix) (List.mem_cons_self _ _)
    have hrest : ∀ q ∈ rest, ∃ sym, pyIdx atoms q.1 = some sym :=
      fun q hq => hall q (List.mem_cons_of_mem _ hq)
    obtain ⟨gs2, heq, hkeys, hsum, hmem⟩ :=
      ih (ppp ++ [⟨Sum.inl i, potcarPath pp sym suffix, 1⟩]) (r ++ [i]) hrest
    refine ⟨⟨Sum.inl i, potcarPath pp sym suffix, 1⟩ :: gs2, ?_, ?_, ?_, ?_⟩
    · simp only [indexSetupLoop, hsym]
      rw [heq, List.append_assoc, List.append_assoc]
      simp
    · simpa using hkeys
    · simp only [sumCounts, List.map_cons, List.sum_cons, List.length_cons]
        at hsum ⊢
      omega
    · intro q hq
      rcases List.mem_cons.mp hq with rfl | hq2
      · exact ⟨sym, hsym, List.mem_cons_self _ _⟩
      · obtain ⟨sym2, h1, h2⟩ := hmem q hq2
        exact ⟨sym2, h1, List.mem_cons_of_mem _ h2⟩

theorem indexSetupLoop_ok_inv (atoms : List String) (pp : String) :
    ∀ (idxs : List (Int × String)) (ppp : List Group) (r : List Int)
      (P : List Group) (R : List Int),
    indexSetupLoop atoms pp idxs ppp r = .ok (P, R) →
    R = r ++ idxs.map Prod.fst ∧
      ∃ gs, P = ppp ++ gs ∧
        gs.map Group.key = idxs.map (fun q => Sum.inl q.1) ∧
        sumCounts gs = idxs.length := by
  intro idxs
  induction idxs with
  | nil =>
    intro ppp r P R h
    simp only [indexSetupLoop, Except.ok.injEq, Prod.mk.injEq] at h
    obtain ⟨h1, h2⟩ := h
    subst h1; subst h2
    exact ⟨by simp, [], by simp [sumCounts]⟩
  | cons q rest ih =>
    intro ppp r P R h
    obtain ⟨i, suffix⟩ := q
    cases hpy : pyIdx atoms i with
    | none => simp [indexSetupLoop, hpy] at h
    | some sym =>
      simp only [indexSetupLoop, hpy] at h
      obtain ⟨hR, gs2, hP, hkeys, hsum⟩ := ih _ _ _ _ h
      refine ⟨by rw [hR, List.append_assoc]; simp, ?_⟩
      refine ⟨⟨Sum.inl i, potcarPath pp sym suffix, 1⟩ :: gs2, ?_, ?_, ?_⟩
      · rw [hP, List.append_assoc]; simp
      · simpa using hkeys
      · simp only [sumCounts, List.map_cons, List.sum_cons, List.length_cons]
          at hsum ⊢
        omega

theorem symbolSetupLoop_spec (atoms : List String) (pp : String) :
    ∀ (ss : List (String × String)) (ppp : List Group) (r : List Int),
    ∃ (new : List Int) (gs : List Group),
      symbolSetupLoop atoms pp ss ppp r = (ppp ++ gs, r ++ new) ∧
      new.Nodup ∧
      (∀ x ∈ new, x ∉ r ∧ ∃ j : Nat, x = (j : Int) ∧ j < atoms.length) ∧
      gs.map Group.key = ss.map (fun q => (Sum.inr q.1 : Sum Int String)) ∧
      sumCounts gs = new.length := by
  intro ss
  induction ss with
  | nil =>
    intro ppp r
    exact ⟨[], [], by simp [symbolSetupLoop], by simp, by simp, by simp,
      by simp [sumCounts]⟩
  | cons q rest ih =>
    intro ppp r
    obtain ⟨symbol, suffix⟩ := q
    have hstep : symbolSetupLoop atoms pp ((symbol, suffix) :: rest) ppp r =
        symbolSetupLoop atoms pp rest
          (ppp ++ [⟨Sum.inr symbol, potcarPath pp symbol suffix,
                    (claimSymbol atoms symbol r).2⟩])
          (claimSymbol atoms symbol r).1 := rfl
    rw [hstep, claimSymbol_eq]
    set new1 := newClaims symbol (enumAux 0 atoms) r with hnew1
    obtain ⟨new2, gs2, heq, hnd2, hmem2, hkeys2, hsum2⟩ := ih
      (ppp ++ [⟨Sum.inr symbol, potcarPath pp symbol suffix, new1.length⟩])
      (r ++ new1)
    refine ⟨new1 ++ new2,
      ⟨Sum.inr symbol, potcarPath pp symbol suffix, new1.length⟩ :: gs2,
      ?_, ?_, ?_, ?_, ?_⟩
    · rw [heq, List.append_assoc, List.append_assoc]
      simp
    · rw [List.nodup_append]
      refine ⟨newClaims_nodup _ _ _, hnd2, ?_⟩
      intro a ha hb
      obtain ⟨hnr, _⟩ := hmem2 a hb
      exact hnr (List.mem_append_right _ ha)
    · intro x hx
      rcases List.mem_append.mp hx with hx1 | hx2
      · obtain ⟨hnr, p, hp, hpe, _⟩ := newClaims_mem symbol _ r x hx1
        obtain ⟨_, hlt, _⟩ := enumAux_mem atoms 0 p hp
        exact ⟨hnr, p.1, hpe.symm, by omega⟩
      · obtain ⟨hnr, hj⟩ := hmem2 x hx2
        exact ⟨fun hr => hnr (List.mem_append_left _ hr), hj⟩
    · simpa using hkeys2
    · simp only [sumCounts, List.map_cons, List.sum_cons] at hsum2 ⊢
      simp only [List.length_append]
      omega

theorem symbolSetupLoop_complete (atoms : List String) (pp : String) :
    ∀ (ss : List (String × String)) (ppp : List Group) (r : List Int)
      (q : String × String), q ∈ ss →
    ∀ p : Nat × String, p ∈ enumAux 0 atoms → p.2 = q.1 →
      (p.1 : Int) ∈ (symbolSetupLoop atoms pp ss ppp r).2 := by
  intro ss
  induction ss with
  | nil => intro ppp r q hq; cases hq
  | cons q0 rest ih =>
    intro ppp r q hq p hp hsym
    obtain ⟨symbol, suffix⟩ := q0
    have hstep : symbolSetupLoop atoms pp ((symbol, suffix) :: rest) ppp r =
        symbolSetupLoop atoms pp rest
          (ppp ++ [⟨Sum.inr symbol, potcarPath pp symbol suffix,
                    (claimSymbol atoms symbol r).2⟩])
          (claimSymbol atoms symbol r).1 := rfl
    rw [hstep, claimSymbol_eq]
    rcases List.mem_cons.mp hq with rfl | hq2
    · have h1 : (p.1 : Int) ∈ r ++ newClaims symbol (enumAux 0 atoms) r :=
        newClaims_complete symbol _ r p hp hsym
      obtain ⟨new2, gs2, heq, _⟩ := symbolSetupLoop_spec atoms pp rest
        (ppp ++ [⟨Sum.inr symbol, potcarPath pp symbol suffix,
                  (newClaims symbol (enumAux 0 atoms) r).length⟩])
        (r ++ newClaims symbol (enumAux 0 atoms) r)
      rw [heq]
      exact List.mem_append_left _ h1
    · exact ih _ _ q hq2 p hp hsym

theorem defaultLoop_spec (atoms : List String) (pp : String) :
    ∀ (syms : List String) (ppp : List Group) (r : List Int),
    ∃ (new : List Int) (gs : List Group),
      defaultLoop atoms pp syms ppp r = (ppp ++ gs, r ++ new) ∧
      new.Nodup ∧
      (∀ x ∈ new, x ∉ r ∧ ∃ j : Nat, x = (j : Int) ∧ j < atoms.length) ∧
      sumCounts gs = new.length := by
  intro syms
  induction syms with
  | nil =>
    intro ppp r
    exact ⟨[], [], by simp [defaultLoop], by simp, by simp, by simp [sumCounts]⟩
  | cons symbol rest ih =>
    intro ppp r
    have hstep : defaultLoop atoms pp (symbol :: rest) ppp r =
        defaultLoop atoms pp rest
          (if (claimSymbol atoms symbol r).2 > 0 then
            ppp ++ [⟨Sum.inr symbol, potcarPath pp symbol "",
                     (claimSymbol atoms symbol r).2⟩]
          else ppp)
          (claimSymbol atoms symbol r).1 := rfl
    rw [hstep, claimSymbol_eq]
    set new1 := newClaims symbol (enumAux 0 atoms) r with hnew1
    by_cases hpos : new1.length > 0
    · rw [if_pos hpos]
      obtain ⟨new2, gs2, heq, hnd2, hmem2, hsum2⟩ := ih
        (ppp ++ [⟨Sum.inr symbol, potcarPath pp symbol "", new1.length⟩])
        (r ++ new1)
      refine ⟨new1 ++ new2,
        ⟨Sum.inr symbol, potcarPath pp symbol "", new1.length⟩ :: gs2,
        ?_, ?_, ?_, ?_⟩
      · rw [heq, List.append_assoc, List.append_assoc]
        simp
      · rw [List.nodup_append]
        refine ⟨newClaims_nodup _ _ _, hnd2, ?_⟩
        intro a ha hb
        obtain ⟨hnr, _⟩ := hmem2 a hb
        exact hnr (List.mem_append_right _ ha)
      · intro x hx
        rcases List.mem_append.mp hx with hx1 | hx2
        · obtain ⟨hnr, p, hp, hpe, _⟩ := newClaims_mem symbol _ r x hx1
          obtain ⟨_, hlt, _⟩ := enumAux_mem atoms 0 p hp
          exact ⟨hnr, p.1, hpe.symm, by omega⟩
        · obtain ⟨hnr, hj⟩ := hmem2 x hx2
          exact ⟨fun hr => hnr (List.mem_append_left _ hr), hj⟩
      · simp only [sumCounts, List.map_cons, List.sum_cons] at hsum2 ⊢
        simp only [List.length_append]
        omega
    · rw [if_neg hpos]
      have hempty : new1 = [] := List.length_eq_zero.mp (by omega)
      obtain ⟨new2, gs2, heq, hnd2, hmem2, hsum2⟩ := ih ppp (r ++ new1)
      refine ⟨new1 ++ new2, gs2, ?_, ?_, ?_, ?_⟩
      · rw [heq, List.append_assoc]
      · rw [hempty]; simpa using hnd2
      · intro x hx
        rcases List.mem_append.mp hx with hx1 | hx2
        · rw [hempty] at hx1; cases hx1
        · obtain ⟨hnr, hj⟩ := hmem2 x hx2
          exact ⟨fun hr => hnr (List.mem_append_left _ hr), hj⟩
      · rw [hempty]
        simpa using hsum2

theorem defaultLoop_complete (atoms : List String) (pp : String) :
    ∀ (syms : List String) (ppp : List Group) (r : List Int)
      (symbol : String), symbol ∈ syms →
    ∀ p : Nat × String, p ∈ enumAux 0 atoms → p.2 = symbol →
      (p.1 : Int) ∈ (defaultLoop atoms pp syms ppp r).2 := by
  intro syms
  induction syms with
  | nil => intro ppp r symbol hs; cases hs
  | cons s0 rest ih =>
    intro ppp r symbol hs p hp hsym
    have hstep : defaultLoop atoms pp (s0 :: rest) ppp r =
        defaultLoop atoms pp rest
          (if (claimSymbol atoms s0 r).2 > 0 then
            ppp ++ [⟨Sum.inr s0, potcarPath pp s0 "",
                     (claimSymbol atoms s0 r).2⟩]
          else ppp)
          (claimSymbol atoms s0 r).1 := rfl
    rw [hstep, claimSymbol_eq]
    rcases List.mem_cons.mp hs with rfl | hs2
    · have h1 : (p.1 : Int) ∈ r ++ newClaims symbol (enumAux 0 atoms) r :=
        newClaims_complete symbol _ r p hp hsym
      obtain ⟨new2, gs2, heq, _⟩ := defaultLoop_spec atoms pp rest _
        (r ++ newClaims symbol (enumAux 0 atoms) r)
      rw [heq]
      exact List.mem_append_left _ h1
    · exact ih _ _ symbol hs2 p hp hsym

theorem remainingSymbolsAux_mono (keys : List (Sum Int String)) :
    ∀ (l : List String) (acc : List String) (a : String),
    a ∈ acc → a ∈ remainingSymbolsAux keys l acc := by
  intro l
  induction l with
  | nil => intro acc a ha; simpa [remainingSymbolsAux] using ha
  | cons sym rest ih =>
    intro acc a ha
    by_cases hc : sym ∉ acc ∧ (Sum.inr sym : Sum Int String) ∉ keys
    · simp only [remainingSymbolsAux, if_pos hc]
      exact ih _ a (List.mem_append_left _ ha)
    · simp only [remainingSymbolsAux, if_neg hc]
      exact ih _ a ha

theorem remainingSymbolsAux_complete (keys : List (Sum Int String)) :
    ∀ (l : List String) (acc : List String) (sym : String),
    sym ∈ l → (Sum.inr sym : Sum Int String) ∉ keys →
      sym ∈ remainingSymbolsAux keys l acc := by
  intro l
  induction l with
  | nil => intro acc sym hs; cases hs
  | cons s0 rest ih =>
    intro acc sym hs hk
    rcases List.mem_cons.mp hs with rfl | hs2
    · by_cases hc : sym ∉ acc ∧ (Sum.inr sym : Sum Int String) ∉ keys
      · simp only [remainingSymbolsAux, if_pos hc]
        exact remainingSymbolsAux_mono keys rest _ sym
          (List.mem_append_right _ (List.mem_singleton.mpr rfl))
      · have hin : sym ∈ acc := by
          by_contra hni
          exact hc ⟨hni, hk⟩
        simp only [remainingSymbolsAux, if_neg hc]
        exact remainingSymbolsAux_mono keys rest _ sym hin
    · by_cases hc : s0 ∉ acc ∧ (Sum.inr s0 : Sum Int String) ∉ keys
      · simp only [remainingSymbolsAux, if_pos hc]
        exact ih _ sym hs2 hk
      · simp only [remainingSymbolsAux, if_neg hc]
        exact ih _ sym hs2 hk

/-- A duplicate-free list of integers inside `[0, n)` that covers all of
`0, ..., n-1` has length exactly `n`. -/
theorem resort_cover_length (n : Nat) (r : List Int) (hnd : r.Nodup)
    (hbd : ∀ x ∈ r, 0 ≤ x ∧ x < (n : Int))
    (hcov : ∀ j : Nat, j < n → (j : Int) ∈ r) : r.length = n := by
  have hinj : Function.Injective (fun j : Nat => (j : Int)) := by
    intro a b h
    simpa using h
  have hsub : r.toFinset = (Finset.range n).image (fun j : Nat => (j : Int)) := by
    ext x
    simp only [List.mem_toFinset, Finset.mem_image, Finset.mem_range]
    constructor
    · intro hx
      obtain ⟨h0, h1⟩ := hbd x hx
      refine ⟨x.toNat, by omega, by omega⟩
    · rintro ⟨j, hj, rfl⟩
      exact hcov j hj
  calc r.length = r.toFinset.card := (List.toFinset_card_of_nodup hnd).symm
    _ = ((Finset.range n).image (fun j : Nat => (j : Int))).card := by rw [hsub]
    _ = (Finset.range n).card := Finset.card_image_of_injective _ hinj
    _ = n := Finset.card_range n

/-- A list of integers of length `n` covering all of `0, ..., n-1`
contains each of them exactly once. -/
theorem resort_cover_count (n : Nat) (r : List Int) (hlen : r.length = n)
    (hcov : ∀ j : Nat, j < n → (j : Int) ∈ r) :
    ∀ j : Nat, j < n → r.count ((j : Int)) = 1 := by
  have hinj : Function.Injective (fun j : Nat => (j : Int)) := by
    intro a b h
    simpa using h
  set S : Finset Int := (Finset.range n).image (fun j : Nat => (j : Int))
    with hS
  have hcardS : S.card = n := by
    rw [hS, Finset.card_image_of_injective _ hinj, Finset.card_range]
  have hpos : ∀ x ∈ S, 1 ≤ r.count x := by
    intro x hx
    rw [hS] at hx
    simp only [Finset.mem_image, Finset.mem_range] at hx
    obtain ⟨j, hj, rfl⟩ := hx
    exact List.count_pos_iff.mpr (hcov j hj)
  have hsubset : S ⊆ (r : Multiset Int).toFinset := by
    intro x hx
    rw [Multiset.mem_toFinset, Multiset.mem_coe]
    have h1 := hpos x hx
    exact List.count_pos_iff.mp (by omega)
  have hsum_le : S.sum (fun x => r.count x) ≤ n := by
    calc S.sum (fun x => r.count x)
        = S.sum (fun x => (r : Multiset Int).count x) := by
          refine Finset.sum_congr rfl ?_
          intro x _
          rw [Multiset.coe_count]
      _ ≤ ((r : Multiset Int).toFinset).sum
            (fun x => (r : Multiset Int).count x) :=
          Finset.sum_le_sum_of_subset hsubset
      _ = Multiset.card (r : Multiset Int) :=
          Multiset.toFinset_sum_count_eq _
      _ = r.length := Multiset.coe_card r
      _ = n := hlen
  intro j hj
  have hmem : ((j : Int)) ∈ S := by
    rw [hS]
    simp only [Finset.mem_image, Finset.mem_range]
    exact ⟨j, hj, rfl⟩
  by_contra hne
  have h2 : 2 ≤ r.count ((j : Int)) := by
    have := hpos _ hmem
    omega
  have hlt : S.sum (fun _ => (1 : Nat)) < S.sum (fun x => r.count x) :=
    Finset.sum_lt_sum (fun x hx => hpos x hx) ⟨(j : Int), hmem, by omega⟩
  rw [Finset.sum_const, smul_eq_mul, mul_one, hcardS] at hlt
  omega

/-- Forward direction for C1/C3: a valid override set makes `sort_atoms`
succeed, with a resort list that is nodup, bounded and covering, with
group counts summing to the atom count, with the index keys as the
prefix of the resort list, and with one count-1 group per index setup. -/
theorem sort_atoms_valid (atoms : List String) (pp : String)
    (setups : List SetupEntry) (hv : validSetups atoms setups) :
    ∃ res : SortResult, sort_atoms atoms pp setups = .ok res ∧
      res.resort.length = atoms.length ∧
      res.resort.Nodup ∧
      (∀ j : Nat, j < atoms.length → (j : Int) ∈ res.resort) ∧
      sumCounts res.ppp = atoms.length ∧
      (∃ rest, res.resort = indexKeys setups ++ rest) ∧
      (∀ q ∈ indexSetups setups, ∃ sym, pyIdx atoms q.1 = some sym ∧
        (⟨Sum.inl q.1, potcarPath pp sym q.2, 1⟩ : Group) ∈ res.ppp) := by
  obtain ⟨hnd0, hbd0⟩ := hv
  set n := atoms.length with hn
  set idxs := indexSetups setups with hidxs
  set rk : List Int := idxs.map Prod.fst with hrk
  have hbd0k : ∀ x ∈ rk, 0 ≤ x ∧ x < (n : Int) := hbd0
  have hall : ∀ q ∈ idxs, ∃ sym, pyIdx atoms q.1 = some sym := by
    intro q hq
    have hmem : q.1 ∈ rk := by
      rw [hrk]
      exact List.mem_map_of_mem _ hq
    obtain ⟨h0, h1⟩ := hbd0k q.1 hmem
    exact pyIdx_of_nonneg_lt atoms q.1 h0 h1
  obtain ⟨gs1, heq1, hkeys1, hsum1, hmem1⟩ :=
    indexSetupLoop_ok atoms pp idxs [] [] hall
  simp only [List.nil_append] at heq1
  obtain ⟨new2, gs2, heq2, hnd2, hmem2, hkeys2, hsum2⟩ :=
    symbolSetupLoop_spec atoms pp (symbolSetups setups) gs1 rk
  obtain ⟨new3, gs3, heq3, hnd3, hmem3, hsum3⟩ :=
    defaultLoop_spec atoms pp (remainingSymbols atoms (gs1 ++ gs2))
      (gs1 ++ gs2) (rk ++ new2)
  set r3 : List Int := (rk ++ new2) ++ new3 with hr3
  set ppp3 : List Group := (gs1 ++ gs2) ++ gs3 with hppp3
  -- the resort list is duplicate-free
  have hnodup : r3.Nodup := by
    rw [hr3, List.nodup_append, List.nodup_append]
    refine ⟨⟨hnd0, hnd2, ?_⟩, hnd3, ?_⟩
    · intro a ha hb
      exact (hmem2 a hb).1 ha
    · intro a ha hb
      exact (hmem3 a hb).1 ha
  -- all entries lie in [0, n)
  have hbounds : ∀ x ∈ r3, 0 ≤ x ∧ x < (n : Int) := by
    intro x hx
    rw [hr3] at hx
    rcases List.mem_append.mp hx with hx12 | hx3
    · rcases List.mem_append.mp hx12 with hx1 | hx2
      · exact hbd0k x hx1
      · obtain ⟨_, j, rfl, hj⟩ := hmem2 x hx2
        constructor <;> omega
    · obtain ⟨_, j, rfl, hj⟩ := hmem3 x hx3
      constructor <;> omega
  -- every atom index is claimed
  have hcover : ∀ j : Nat, j < n → (j : Int) ∈ r3 := by
    intro j hj
    have hjget : atoms[j]? = some atoms[j] := List.getElem?_eq_getElem hj
    have hp : ((j : Nat), atoms[j]) ∈ enumAux 0 atoms := by
      have := enumAux_mem_of atoms 0 j atoms[j] hjget
      simpa using this
    by_cases hq : ∃ q ∈ symbolSetups setups, q.1 = atoms[j]
    · obtain ⟨q, hqmem, hqsym⟩ := hq
      have h1 := symbolSetupLoop_complete atoms pp (symbolSetups setups)
        gs1 rk q hqmem ((j : Nat), atoms[j]) hp hqsym.symm
      rw [heq2] at h1
      rw [hr3]
      exact List.mem_append_left _ h1
    · have hkeys12 : (gs1 ++ gs2).map Group.key =
          idxs.map (fun q => (Sum.inl q.1 : Sum Int String)) ++
          (symbolSetups setups).map
            (fun q => (Sum.inr q.1 : Sum Int String)) := by
        rw [List.map_append, hkeys1, hkeys2]
      have hnotkey : (Sum.inr atoms[j] : Sum Int String) ∉
          (gs1 ++ gs2).map Group.key := by
        rw [hkeys12]
        intro hc
        rcases List.mem_append.mp hc with hc1 | hc2
        · obtain ⟨q, _, hqe⟩ := List.mem_map.mp hc1
          exact Sum.noConfusion hqe
        · obtain ⟨q, hqmem, hqe⟩ := List.mem_map.mp hc2
          exact hq ⟨q, hqmem, Sum.inr.inj hqe⟩
      have hsmem : atoms[j] ∈ atoms := List.getElem_mem hj
      have hsyms : atoms[j] ∈ remainingSymbols atoms (gs1 ++ gs2) :=
        remainingSymbolsAux_complete _ atoms [] _ hsmem hnotkey
      have h1 := defaultLoop_complete atoms pp
        (remainingSymbols atoms (gs1 ++ gs2)) (gs1 ++ gs2) (rk ++ new2)
        atoms[j] hsyms ((j : Nat), atoms[j]) hp rfl
      rw [heq3] at h1
      exact h1
  have hlen : r3.length = n := resort_cover_length n r3 hnodup hbounds hcover
  have hsum : sumCounts ppp3 = n := by
    have hrkl : rk.length = idxs.length := List.length_map _ _
    rw [hppp3, sumCounts_append, sumCounts_append, hsum1, hsum2, hsum3]
    rw [hr3] at hlen
    simp only [List.length_append] at hlen
    omega
  have hfin : sort_atoms atoms pp setups =
      .ok ⟨ppp3, r3, symbolCount atoms ppp3⟩ := by
    rw [sort_atoms]
    rw [← hidxs, heq1]
    simp only
    rw [heq2]
    simp only
    rw [heq3]
    simp only [← hr3, ← hppp3]
    rw [if_pos (by rw [hlen]), if_pos (by rw [hsum])]
  refine ⟨⟨ppp3, r3, symbolCount atoms ppp3⟩, hfin, hlen, hnodup, hcover,
    hsum, ⟨new2 ++ new3, by rw [hr3, List.append_assoc]; rfl⟩, ?_⟩
  intro q hq
  obtain ⟨sym, h1, h2⟩ := hmem1 q hq
  refine ⟨sym, h1, ?_⟩
  rw [hppp3]
  exact List.mem_append_left _ (List.mem_append_left _ h2)

/-- Converse direction for C1: whenever `sort_atoms` returns at all (the
two asserts passed), the resort list has full length and covers every
atom index exactly once, and the group counts sum to the atom count. -/
theorem sort_atoms_ok_inv (atoms : List String) (pp : String)
    (setups : List SetupEntry) (res : SortResult)
    (h : sort_atoms atoms pp setups = .ok res) :
    res.resort.length = atoms.length ∧
      (∀ j : Nat, j < atoms.length → res.resort.count ((j : Int)) = 1) ∧
      sumCounts res.ppp = atoms.length := by
  cases hidx : indexSetupLoop atoms pp (indexSetups setups) [] [] with
  | error e => rw [sort_atoms, hidx] at h; cases h
  | ok pr =>
    obtain ⟨P, R⟩ := pr
    obtain ⟨hR, gs1, hP, hkeys1, hsum1⟩ :=
      indexSetupLoop_ok_inv atoms pp _ [] [] P R hidx
    simp only [List.nil_append] at hR hP
    set rk : List Int := (indexSetups setups).map Prod.fst with hrk
    obtain ⟨new2, gs2, heq2, hnd2, hmem2, hkeys2, hsum2⟩ :=
      symbolSetupLoop_spec atoms pp (symbolSetups setups) gs1 rk
    obtain ⟨new3, gs3, heq3, hnd3, hmem3, hsum3⟩ :=
      defaultLoop_spec atoms pp (remainingSymbols atoms (gs1 ++ gs2))
        (gs1 ++ gs2) (rk ++ new2)
    rw [sort_atoms, hidx] at h
    simp only at h
    rw [hP, hR, heq2] at h
    simp only at h
    rw [heq3] at h
    set r3 : List Int := (rk ++ new2) ++ new3 with hr3
    set ppp3 : List Group := (gs1 ++ gs2) ++ gs3 with hppp3
    have hcover : ∀ j : Nat, j < atoms.length → (j : Int) ∈ r3 := by
      intro j hj
      have hjget : atoms[j]? = some atoms[j] := List.getElem?_eq_getElem hj
      have hp : ((j : Nat), atoms[j]) ∈ enumAux 0 atoms := by
        have := enumAux_mem_of atoms 0 j atoms[j] hjget
        simpa using this
      by_cases hq : ∃ q ∈ symbolSetups setups, q.1 = atoms[j]
      · obtain ⟨q, hqmem, hqsym⟩ := hq
        have h1 := symbolSetupLoop_complete atoms pp (symbolSetups setups)
          gs1 rk q hqmem ((j : Nat), atoms[j]) hp hqsym.symm
        rw [heq2] at h1
        rw [hr3]
        exact List.mem_append_left _ h1
      · have hkeys12 : (gs1 ++ gs2).map Group.key =
            (indexSetups setups).map
              (fun q => (Sum.inl q.1 : Sum Int String)) ++
            (symbolSetups setups).map
              (fun q => (Sum.inr q.1 : Sum Int String)) := by
          rw [List.map_append, hkeys1, hkeys2]
        have hnotkey : (Sum.inr atoms[j] : Sum Int String) ∉
            (gs1 ++ gs2).map Group.key := by
          rw [hkeys12]
          intro hc
          rcases List.mem_append.mp hc with hc1 | hc2
          · obtain ⟨q, _, hqe⟩ := List.mem_map.mp hc1
            exact Sum.noConfusion hqe
          · obtain ⟨q, hqmem, hqe⟩ := List.mem_map.mp hc2
            exact hq ⟨q, hqmem, Sum.inr.inj hqe⟩
        have hsmem : atoms[j] ∈ atoms := List.getElem_mem hj
        have hsyms : atoms[j] ∈ remainingSymbols atoms (gs1 ++ gs2) :=
          remainingSymbolsAux_complete _ atoms [] _ hsmem hnotkey
        have h1 := defaultLoop_complete atoms pp
          (remainingSymbols atoms (gs1 ++ gs2)) (gs1 ++ gs2) (rk ++ new2)
          atoms[j] hsyms ((j : Nat), atoms[j]) hp rfl
        rw [heq3] at h1
        exact h1
    by_cases hlen : r3.length = atoms.length
    · rw [if_pos hlen] at h
      by_cases hsum : sumCounts ppp3 = atoms.length
      · rw [if_pos hsum] at h
        obtain rfl := (Except.ok.injEq _ _).mp h
        refine ⟨hlen, ?_, hsum⟩
        exact resort_cover_count atoms.length r3 hlen hcover
      · rw [if_neg hsum] at h; cases h
    · rw [if_neg hlen] at h; cases h

end SortLemmas

/-! ## Claims C1-C3: the pseudopotential resolver -/

/-- Claim C1: for every structure (non-empty ordered atom list) and
override set that validly partitions the structure, the resolver
(`sort_atoms`) produces a resort permutation that is a bijection over
the atom indices (length equal to atom count, each original index
appearing exactly once) and a group list whose counts sum exactly to
the atom count; conversely, whenever `sort_atoms` returns at all (both
asserts passed), those invariants hold — a violation is only ever
surfaced as the fatal assertion failure, never silently corrected. -/
theorem C1_resolver_partition_invariants (atoms : List String) (pp : String)
    (setups : List Vasp.SetupEntry) (hne : atoms ≠ []) :
    (Vasp.validSetups atoms setups →
      ∃ res, Vasp.sort_atoms atoms pp setups = .ok res ∧
        res.resort.length = atoms.length ∧
        (∀ j : Nat, j < atoms.length → res.resort.count ((j : Int)) = 1) ∧
        Vasp.sumCounts res.ppp = atoms.length) ∧
    (∀ res, Vasp.sort_atoms atoms pp setups = .ok res →
      res.resort.length = atoms.length ∧
      (∀ j : Nat, j < atoms.length → res.resort.count ((j : Int)) = 1) ∧
      Vasp.sumCounts res.ppp = atoms.length) := by
  constructor
  · intro hv
    obtain ⟨res, hok, hlen, hnd, hcov, hsum, _, _⟩ :=
      sort_atoms_valid atoms pp setups hv
    exact ⟨res, hok, hlen,
      fun j hj => List.count_eq_one_of_mem hnd (hcov j hj), hsum⟩
  · intro res h
    exact sort_atoms_ok_inv atoms pp setups res h

theorem C1_resolver_partition_invariants_witness :
    (["Fe", "Fe", "O", "O", "O"] ≠ ([] : List String)) ∧
    Vasp.validSetups ["Fe", "Fe", "O", "O", "O"] [(Sum.inl 0, "_sv")] ∧
    (∃ res, Vasp.sort_atoms ["Fe", "Fe", "O", "O", "O"] "LDA"
        [(Sum.inl 0, "_sv")] = .ok res ∧
      res.resort.length = 5 ∧
      (∀ j : Nat, j < 5 → res.resort.count ((j : Int)) = 1) ∧
      Vasp.sumCounts res.ppp = 5) :=
  ⟨by decide, by decide,
    (C1_resolver_partition_invariants ["Fe", "Fe", "O", "O", "O"] "LDA"
      [(Sum.inl 0, "_sv")] (by decide)).1 (by decide)⟩

/-- Claim C2: for the structure `[Fe, Fe, O, O, O]`, override list
`[(0, '_sv')]` and pseudopotential family LDA, the resolver returns
exactly three groups in this order — `(0, 'potpaw_LDA/Fe_sv/POTCAR', 1)`,
`('Fe', 'potpaw_LDA/Fe/POTCAR', 1)`, `('O', 'potpaw_LDA/O/POTCAR', 3)` —
and the resort permutation `[0, 1, 2, 3, 4]`. -/
theorem C2_scenario_fe_fe_o_o_o :
    Vasp.sort_atoms ["Fe", "Fe", "O", "O", "O"] "LDA" [(Sum.inl 0, "_sv")] =
      .ok ⟨[⟨Sum.inl 0, "potpaw_LDA/Fe_sv/POTCAR", 1⟩,
            ⟨Sum.inr "Fe", "potpaw_LDA/Fe/POTCAR", 1⟩,
            ⟨Sum.inr "O", "potpaw_LDA/O/POTCAR", 3⟩],
           [0, 1, 2, 3, 4],
           [("Fe", 1), ("Fe", 1), ("O", 3)]⟩ := rfl

/-- Claim C3: an atom named by an explicit-index override is claimed by
that index-keyed group (count 1), which sits in the index-group prefix
of the resort list, and the atom's index occurs exactly once in the
whole resort list — so no symbol-keyed override group (nor any default
group) counts it, regardless of where the index override appears in the
override list. -/
theorem C3_index_override_priority (atoms : List String) (pp : String)
    (setups : List Vasp.SetupEntry) (hv : Vasp.validSetups atoms setups)
    (i : Int) (suffix : String) (hmem : (Sum.inl i, suffix) ∈ setups) :
    ∃ res, Vasp.sort_atoms atoms pp setups = .ok res ∧
      (∃ sym, Vasp.pyIdx atoms i = some sym ∧
        (⟨Sum.inl i, Vasp.potcarPath pp sym suffix, 1⟩ : Vasp.Group)
          ∈ res.ppp) ∧
      res.resort.take (Vasp.indexSetups setups).length =
        Vasp.indexKeys setups ∧
      i ∈ Vasp.indexKeys setups ∧
      res.resort.count i = 1 := by
  obtain ⟨res, hok, hlen, hnd, hcov, hsum, ⟨rest, hdecomp⟩, hgroups⟩ :=
    sort_atoms_valid atoms pp setups hv
  have hidxmem : (i, suffix) ∈ Vasp.indexSetups setups := by
    rw [Vasp.indexSetups, List.mem_filterMap]
    exact ⟨(Sum.inl i, suffix), hmem, rfl⟩
  have hkeymem : i ∈ Vasp.indexKeys setups :=
    List.mem_map_of_mem Prod.fst hidxmem
  have hklen : (Vasp.indexSetups setups).length =
      (Vasp.indexKeys setups).length := (List.length_map _ _).symm
  have htake : res.resort.take (Vasp.indexSetups setups).length =
      Vasp.indexKeys setups := by
    rw [hdecomp, hklen]
    exact List.take_left _ _
  refine ⟨res, hok, hgroups (i, suffix) hidxmem, htake, hkeymem, ?_⟩
  have hin : i ∈ res.resort := by
    rw [hdecomp]
    exact List.mem_append_left _ hkeymem
  exact List.count_eq_one_of_mem hnd hin

theorem C3_index_override_priority_witness :
    Vasp.validSetups ["Fe", "Fe", "O", "O", "O"] [(Sum.inl 0, "_sv")] ∧
    ((Sum.inl (0 : Int), "_sv") ∈
      ([(Sum.inl 0, "_sv")] : List Vasp.SetupEntry)) ∧
    (∃ res, Vasp.sort_atoms ["Fe", "Fe", "O", "O", "O"] "LDA"
        [(Sum.inl 0, "_sv")] = .ok res ∧
      (∃ sym, Vasp.pyIdx ["Fe", "Fe", "O", "O", "O"] 0 = some sym ∧
        (⟨Sum.inl 0, Vasp.potcarPath "LDA" sym "_sv", 1⟩ : Vasp.Group)
          ∈ res.ppp) ∧
      res.resort.take
          (Vasp.indexSetups [(Sum.inl 0, "_sv")]).length =
        Vasp.indexKeys [(Sum.inl 0, "_sv")] ∧
      (0 : Int) ∈ Vasp.indexKeys [(Sum.inl 0, "_sv")] ∧
      res.resort.count 0 = 1) :=
  ⟨by decide, by decide,
    C3_index_override_priority ["Fe", "Fe", "O", "O", "O"] "LDA"
      [(Sum.inl 0, "_sv")] (by decide) 0 "_sv" (by decide)⟩

/-! ## Lemmas about the string helpers -/

section StringLemmas

theorem hasSubChars_cons_unfold (n : List Char) (c : Char) (cs : List Char) :
    Vasp.hasSubChars n (c :: cs) =
      (Vasp.startsWithChars n (c :: cs) || Vasp.hasSubChars n cs) := rfl

theorem startsWithChars_self_append :
    ∀ (n t : List Char), Vasp.startsWithChars n (n ++ t) = true := by
  intro n
  induction n with
  | nil => intro t; rfl
  | cons c cs ih =>
    intro t
    show (c = c && Vasp.startsWithChars cs (cs ++ t)) = true
    simp [ih t]

theorem hasSubChars_self (n rest : List Char) :
    Vasp.hasSubChars n (n ++ rest) = true := by
  cases hnr : n ++ rest with
  | nil =>
    obtain ⟨hn, _⟩ := List.append_eq_nil.mp hnr
    subst hn
    rfl
  | cons c cs =>
    rw [hasSubChars_cons_unfold, ← hnr, startsWithChars_self_append]
    simp

theorem hasSubChars_of_append (n : List Char) :
    ∀ (a rest : List Char), Vasp.hasSubChars n (a ++ (n ++ rest)) = true := by
  intro a
  induction a with
  | nil =>
    intro rest
    simp only [List.nil_append]
    exact hasSubChars_self n rest
  | cons x xs ih =>
    intro rest
    rw [List.cons_append, hasSubChars_cons_unfold, ih rest]
    simp

/-- A string containing `n` between `pre` and `post` passes the
substring test. -/
theorem containsSubstr_of_data (n s : String) (pre post : List Char)
    (h : s.data = pre ++ (n.data ++ post)) :
    Vasp.containsSubstr n s = true := by
  unfold Vasp.containsSubstr
  rw [h]
  exact hasSubChars_of_append n.data pre post

end StringLemmas

/-! ## Claims C4-C5 -/

/-- Claim C4 counterexample: a potential-metadata file with two species
blocks (`Fe`, then `O`) paired with single-entry tag arrays is NOT
treated as a reconciliation failure: `check_state` zips the arrays with
the blocks, silently truncating to one entry. -/
theorem C4_ldau_mismatch_counterexample :
    Vasp.potcarSymbols
        ["PAW Fe 06Sep2000", "End of Dataset", "PAW O 08Apr2002",
         "End of Dataset"] = some ["Fe", "O"] ∧
    Vasp.check_state_ldau
        ["PAW Fe 06Sep2000", "End of Dataset", "PAW O 08Apr2002",
         "End of Dataset"] [2] [0] [4] =
      some [("Fe", ⟨2, 4, 0⟩)] := ⟨rfl, rfl⟩

theorem zip4_length {α β γ δ : Type} :
    ∀ (a : List α) (b : List β) (c : List γ) (d : List δ),
    (Vasp.zip4 a b c d).length =
      min (min a.length b.length) (min c.length d.length) := by
  intro a
  induction a with
  | nil =>
    intro b c d
    cases b <;> cases c <;> cases d <;>
      simp [Vasp.zip4]
  | cons x xs ih =>
    intro b c d
    cases b with
    | nil => simp [Vasp.zip4]
    | cons y ys =>
      cases c with
      | nil => simp [Vasp.zip4]
      | cons z zs =>
        cases d with
        | nil => simp [Vasp.zip4]
        | cons w ws =>
          simp only [Vasp.zip4, List.length_cons, ih]
          omega

/-- Claim C4 (amended): when the DFT+U tag arrays are present,
`check_state` pairs their entries positionally with the species blocks
parsed from the potential-metadata file, truncating to the shortest of
the four sequences (Python `zip` semantics); a count mismatch is
silently truncated, never surfaced as a reconciliation failure. -/
theorem C4_ldau_pairing_truncates (symbols : List String)
    (ldaul ldauj ldauu : List Int) (lines : List String)
    (hsyms : Vasp.potcarSymbols lines = some symbols) :
    Vasp.check_state_ldau lines ldaul ldauj ldauu =
      some (Vasp.reconstruct_ldau_luj symbols ldaul ldauj ldauu) ∧
    (Vasp.reconstruct_ldau_luj symbols ldaul ldauj ldauu).length =
      min (min symbols.length ldaul.length)
        (min ldauj.length ldauu.length) := by
  constructor
  · rw [Vasp.check_state_ldau, hsyms]
  · rw [Vasp.reconstruct_ldau_luj, List.length_map]
    exact zip4_length symbols ldaul ldauj ldauu

theorem C4_ldau_pairing_truncates_witness :
    Vasp.potcarSymbols
        ["PAW Fe 06Sep2000", "End of Dataset", "PAW O 08Apr2002",
         "End of Dataset"] = some ["Fe", "O"] ∧
    (Vasp.check_state_ldau
        ["PAW Fe 06Sep2000", "End of Dataset", "PAW O 08Apr2002",
         "End of Dataset"] [2] [0] [4] =
      some (Vasp.reconstruct_ldau_luj ["Fe", "O"] [2] [0] [4]) ∧
    (Vasp.reconstruct_ldau_luj ["Fe", "O"] [2] [0] [4]).length =
      min (min 2 1) (min 1 1)) :=
  ⟨rfl, C4_ldau_pairing_truncates ["Fe", "O"] [2] [0] [4]
    ["PAW Fe 06Sep2000", "End of Dataset", "PAW O 08Apr2002",
     "End of Dataset"] rfl⟩

/-- Claim C5: when the engine child process exits with a nonzero code,
`calculate` raises a fatal error whose message names the engine
(`VASP`) and the exit code, and the working directory is restored to
its pre-call value before the error propagates — and indeed on every
exit path (missing command, engine exception, success and failure). -/
theorem C5_engine_failure_fatal (olddir dir cmd : String)
    (engine : String → String → Except String Nat) (code : Nat)
    (h1 : engine cmd dir = .ok code) (h2 : code ≠ 0) :
    Vasp.calculate_invoke "VASP" (some cmd) olddir dir engine =
      (olddir, .error ("VASP" ++ " returned an error: " ++ toString code)) ∧
    Vasp.containsSubstr "VASP"
      ("VASP" ++ " returned an error: " ++ toString code) = true ∧
    Vasp.containsSubstr (toString code)
      ("VASP" ++ " returned an error: " ++ toString code) = true ∧
    (∀ (command : Option String)
      (engine2 : String → String → Except String Nat),
      (Vasp.calculate_invoke "VASP" command olddir dir engine2).1 = olddir) := by
  refine ⟨?_, ?_, ?_, ?_⟩
  · rw [Vasp.calculate_invoke, h1]
    simp only
    rw [if_pos h2]
  · refine containsSubstr_of_data "VASP" _ []
      ((" returned an error: ").data ++ (toString code).data) ?_
    simp [String.data_append, List.append_assoc]
  · refine containsSubstr_of_data (toString code) _
      (("VASP" ++ " returned an error: ").data) [] ?_
    simp [String.data_append]
  · intro command engine2
    cases command with
    | none => rfl
    | some cmd2 =>
      rw [Vasp.calculate_invoke]
      cases hres : engine2 cmd2 dir with
      | error e => rfl
      | ok c =>
        simp only
        split <;> rfl

theorem C5_engine_failure_fatal_witness :
    ((fun (_ _ : String) => (Except.ok 1 : Except String Nat)) "vasp" "/c" =
      .ok 1) ∧ (1 : Nat) ≠ 0 ∧
    (Vasp.calculate_invoke "VASP" (some "vasp") "/home/u" "/c"
        (fun _ _ => .ok 1) =
      ("/home/u", .error ("VASP" ++ " returned an error: " ++ toString 1))) :=
  ⟨rfl, by decide,
    (C5_engine_failure_fatal "/home/u" "/c" "vasp" (fun _ _ => .ok 1) 1
      rfl (by decide)).1⟩

/-! ## Lemmas about the state machine -/

section StateLemmas

/-- The only state the FINISHED block can return is FINISHED. -/
theorem finished_check_val (s : Vasp.Snapshot) (st : Nat)
    (h : Vasp.finished_check s = .ok (some st)) : st = Vasp.FINISHED := by
  unfold Vasp.finished_check at h
  split at h
  · cases hoc : s.outcar with
    | none => rw [hoc] at h; simp at h
    | some lines =>
      rw [hoc] at h
      simp only at h
      cases hls : lines.getLast? with
      | none => rw [hls] at h; cases h
      | some l =>
        rw [hls] at h
        simp only at h
        cases hcont : Vasp.containsSubstr Vasp.marker l with
        | true =>
          rw [hcont] at h
          simp only [if_true, Except.ok.injEq, Option.some.injEq] at h
          exact h.symm
        | false =>
          rw [hcont] at h
          simp at h
  · simp at h

/-- When the job is not queued and the FINISHED block fell through
without error, the NOT_FINISHED block returns NOT_FINISHED — both when
OUTCAR is missing and when its last line lacks the marker. -/
theorem notfinished_of_finished_none (s : Vasp.Snapshot)
    (hq : s.inQueue = false) (hf : Vasp.finished_check s = .ok none) :
    Vasp.notfinished_check s = .ok (some Vasp.NOTFINISHED) := by
  unfold Vasp.finished_check at hf
  unfold Vasp.notfinished_check
  rw [hq] at hf ⊢
  simp only [Bool.not_false, if_true] at hf ⊢
  cases hoc : s.outcar with
  | none => rfl
  | some lines =>
    rw [hoc] at hf
    simp only at hf ⊢
    cases hls : lines.getLast? with
    | none =>
      rw [hls] at hf
      simp only at hf
      cases hf
    | some l =>
      rw [hls] at hf
      simp only at hf ⊢
      cases hcont : Vasp.containsSubstr Vasp.marker l with
      | true =>
        rw [hcont] at hf
        simp at hf
      | false =>
        simp

/-- The EMPTY_OUTPUT (`EMPTYCONTCAR`) branch of `get_state` is dead
code: no snapshot can reach it, because the NOT_FINISHED block before
it returns (or the empty-OUTCAR index error is raised) in every
not-in-queue case. -/
theorem get_state_no_emptycontcar (s : Vasp.Snapshot) :
    Vasp.get_state s ≠ .ok Vasp.EMPTYCONTCAR := by
  intro h
  unfold Vasp.get_state at h
  split at h
  · exact absurd ((Except.ok.injEq _ _).mp h) (by decide)
  · split at h
    · exact absurd ((Except.ok.injEq _ _).mp h) (by decide)
    · split at h
      · exact absurd ((Except.ok.injEq _ _).mp h) (by decide)
      · split at h
        · exact absurd ((Except.ok.injEq _ _).mp h) (by decide)
        · rename_i hq4
          have hq : s.inQueue = false := by
            cases hval : s.inQueue
            · rfl
            · exact absurd hval hq4
          cases hfc : Vasp.finished_check s with
          | error e => rw [hfc] at h; cases h
          | ok o =>
            cases o with
            | some st =>
              rw [hfc] at h
              simp only [Except.ok.injEq] at h
              have h3 := finished_check_val s st hfc
              rw [h3] at h
              exact absurd h (by decide)
            | none =>
              have hnf := notfinished_of_finished_none s hq hfc
              rw [hfc] at h
              simp only at h
              rw [hnf] at h
              simp only [Except.ok.injEq] at h
              exact absurd h (by decide)

end StateLemmas

/-! ## Claims C6-C10 -/

/-- Claim C6: whenever the kpoints-input (KPOINTS) file is missing from
the calculation directory, `get_state` returns EMPTY, regardless of
which other files are present, of the queue oracle and of the stored
job id. -/
theorem C6_missing_kpoints_empty (s : Vasp.Snapshot)
    (h : s.kpoints = false) : Vasp.get_state s = .ok Vasp.EMPTY := by
  obtain ⟨i, p, pot, k, d, oc, cc, j, q⟩ := s
  simp only at h
  subst h
  cases i <;> cases p <;> cases pot <;> rfl

theorem C6_missing_kpoints_empty_witness :
    (Vasp.Snapshot.mk true true true false true (some ["x"]) (some "y")
        (some 7) true).kpoints = false ∧
    Vasp.get_state
        (Vasp.Snapshot.mk true true true false true (some ["x"]) (some "y")
          (some 7) true) = .ok Vasp.EMPTY :=
  ⟨rfl, C6_missing_kpoints_empty _ rfl⟩

/-- Claim C7: when all four input files exist (so the NEB layout cannot
apply), the job is not in the queue, and OUTCAR exists with its last
line containing the normal-termination marker, `get_state` returns
FINISHED. -/
theorem C7_finished (s : Vasp.Snapshot) (lines : List String) (l : String)
    (h1 : s.incar = true) (h2 : s.poscar = true) (h3 : s.potcar = true)
    (h4 : s.kpoints = true) (h5 : s.inQueue = false)
    (h6 : s.outcar = some lines) (h7 : lines.getLast? = some l)
    (h8 : Vasp.containsSubstr Vasp.marker l = true) :
    Vasp.get_state s = .ok Vasp.FINISHED := by
  obtain ⟨i, p, pot, k, d, oc, cc, j, q⟩ := s
  simp only at h1 h2 h3 h4 h5 h6
  subst h1; subst h2; subst h3; subst h4; subst h5; subst h6
  cases j <;>
    simp [Vasp.get_state, Vasp.finished_check, h7, h8]

theorem C7_finished_witness :
    (Vasp.Snapshot.mk true true true true false
        (some ["foo", "Voluntary context switches:  42"]) none none
        false).incar = true ∧
    Vasp.get_state
        (Vasp.Snapshot.mk true true true true false
          (some ["foo", "Voluntary context switches:  42"]) none none
          false) = .ok Vasp.FINISHED :=
  ⟨rfl, C7_finished _ ["foo", "Voluntary context switches:  42"]
    "Voluntary context switches:  42" rfl rfl rfl rfl rfl rfl rfl
    (by decide)⟩

/-- Claim C8 counterexample: contrary to the claim, there is NO snapshot
(and queue-oracle result) for which `get_state` returns EMPTY_OUTPUT
(`EMPTYCONTCAR`) — the NOT_FINISHED block before it already returns in
every case that reaches it, so the zero-length-CONTCAR branch is dead
code. -/
theorem C8_no_empty_output_counterexample :
    (∃ s : Vasp.Snapshot, Vasp.get_state s = .ok Vasp.EMPTYCONTCAR) = False :=
  eq_false (fun h => get_state_no_emptycontcar h.choose h.choose_spec)

/-- Claim C8 (amended): the EMPTY_OUTPUT rule holds only vacuously — for
every snapshot, `get_state` never returns EMPTY_OUTPUT
(`EMPTYCONTCAR`): any fall-through that would reach the zero-length
structure-output check has already returned NOT_FINISHED (or raised the
empty-OUTCAR index error), so the branch is unreachable. -/
theorem C8_empty_output_unreachable (s : Vasp.Snapshot) :
    (Vasp.get_state s = .ok Vasp.EMPTYCONTCAR) = False :=
  eq_false (get_state_no_emptycontcar s)

/-- Claim C9: when `check_state` reports no changes, every requested
property is cached, and OUTCAR is absent or its last line lacks the
normal-termination marker, `calculation_required` falls off its end and
returns Python `None` (here `ok none`) — a falsy value, so callers
treating the result as a boolean conclude no run is needed even though
the output is unfinished. -/
theorem C9_calculation_required_falls_off
    (system_changes properties resultKeys : List String)
    (outcar : Option (List String))
    (h1 : system_changes = [])
    (h2 : ∀ p ∈ properties, p ∈ resultKeys)
    (h3 : outcar = none ∨ ∃ lines l, outcar = some lines ∧
      lines.getLast? = some l ∧
      Vasp.containsSubstr Vasp.marker l = false) :
    Vasp.calculation_required system_changes properties resultKeys outcar
      = .ok none := by
  subst h1
  rcases h3 with rfl | ⟨lines, l, rfl, hlast, hcont⟩
  · simp [Vasp.calculation_required]
    exact h2
  · simp [Vasp.calculation_required, hlast, hcont]
    exact h2

theorem C9_calculation_required_falls_off_witness :
    (([] : List String) = []) ∧
    (∀ p ∈ (["energy"] : List String), p ∈ (["energy"] : List String)) ∧
    Vasp.calculation_required [] ["energy"] ["energy"]
        (some ["running..."]) = .ok none :=
  ⟨rfl, by decide,
    C9_calculation_required_falls_off [] ["energy"] ["energy"]
      (some ["running..."]) rfl (by decide)
      (Or.inr ⟨["running..."], "running...", rfl, rfl, by decide⟩)⟩

/-- Claim C10 (shown false on the code): `get_state` is NOT total — on a
snapshot whose OUTCAR exists but is empty (no lines), the finished
check's `lines[-1]` raises an IndexError instead of returning a state.
This evaluates the code at the failing input. -/
theorem C10_empty_outcar_index_error :
    Vasp.get_state
        (Vasp.Snapshot.mk true true true true false (some []) none none
          false) = .error .indexError := rfl

